import Mathlib

/-!
Verification development for the arXiv paper tracker (src/main.py).

The program's data is text; we model strings as `List Char`.  Each definition
is a shallow embedding of the corresponding Python function:

* `stripVersion`       — `re.sub(r'v\d+$', '', paper_id)` (identity when the
                         string does not end in `v` followed by digits);
* `isAnalyzed`         — the membership test in `main` (raw id or
                         version-stripped id in the known set);
* `expandKnown`        — the closure in `get_analyzed_papers` that records both
                         the normalized and the raw form of every extracted id;
* `matchAt`/`splitSections` — the section splitter `re.split(r'\n### (.+?)\n', content)`;
* `extractId`          — `re.search(r'https?://arxiv\.org/abs/([^)\s\n]+)', body)`;
* `cleanEntries`/`cleanDuplicateEntries` — the dedup pass of
                         `clean_duplicate_entries`;
* `sortDesc`/`papersToAnalyze`/`remainingPapers` — the stable descending sort
                         and cap-truncation in `main`;
* `recentCutoff`/`getRecentPapers` — the recency filter and query fallback of
                         `get_recent_papers` (the remote catalog is an oracle);
* `analyzePaperWithChatgpt`/`processPapers` — the enrichment loop of `main`
                         (analysis service and downloader are oracles);
* `getAnalyzedPapers`  — the fail-soft history load;
* `finalizeRun`        — the guarded write/notify tail of `main`.
-/

namespace ArxivTracker

/-- Python `str.isspace` characters relevant here (ASCII whitespace, the set
`\s` of the `re` module restricted to ASCII, which is all the program's
format strings produce). -/
def isPySpace (c : Char) : Bool :=
  c = ' ' ∨ c = '\t' ∨ c = '\n' ∨ c = '\r' ∨ c = '\x0b' ∨ c = '\x0c'

/-- Python `str.strip()`: drop leading and trailing whitespace. -/
def pyStrip (s : List Char) : List Char :=
  ((s.dropWhile isPySpace).reverse.dropWhile isPySpace).reverse

/-- `re.sub(r'v\d+$', '', s)`: if the string ends in `'v'` followed by one or
more digits, remove that suffix; otherwise return the string unchanged.  The
regex is anchored at the end, and `\d+` being greedy, the removed digits are
exactly the maximal trailing digit run, with the `'v'` immediately before it. -/
def stripVersion (s : List Char) : List Char :=
  let r := s.reverse
  let d := r.takeWhile Char.isDigit
  if d.isEmpty then s
  else
    match r.drop d.length with
    | 'v' :: rest => rest.reverse
    | _ => s

/-- The dedup membership test in `main` (lines 592-597):
`paper_id in analyzed_papers or paper_id_no_version in analyzed_papers`. -/
def isAnalyzed (known : List (List Char)) (pid : List Char) : Prop :=
  pid ∈ known ∨ stripVersion pid ∈ known

instance (known : List (List Char)) (pid : List Char) :
    Decidable (isAnalyzed known pid) := by
  unfold isAnalyzed; infer_instance

/-- The closure in `get_analyzed_papers` (lines 258-265): for every extracted
identifier, record its normalized form and the raw form. -/
def expandKnown (ids : List (List Char)) : List (List Char) :=
  ids.flatMap (fun i => [stripVersion i, i])

/- ### Lemmas about `stripVersion` -/

theorem stripVersion_of_not_mem_v {s : List Char} (h : 'v' ∉ s) :
    stripVersion s = s := by
  unfold stripVersion
  by_cases hd : (s.reverse.takeWhile Char.isDigit).isEmpty
  · simp [hd]
  · simp only [hd, if_false]
    cases hdrop : s.reverse.drop (s.reverse.takeWhile Char.isDigit).length with
    | nil => rfl
    | cons a rest =>
      by_cases ha : a = 'v'
      · exfalso
        apply h
        rw [← List.mem_reverse]
        have : a ∈ s.reverse.drop (s.reverse.takeWhile Char.isDigit).length := by
          rw [hdrop]; exact List.mem_cons_self _ _
        have := (List.drop_sublist _ _).mem this
        rwa [ha] at this
      · cases a <;> simp_all

theorem stripVersion_cases (s : List Char) :
    stripVersion s = s ∨
      ∃ rest, s.reverse.drop (s.reverse.takeWhile Char.isDigit).length = 'v' :: rest ∧
        stripVersion s = rest.reverse := by
  unfold stripVersion
  by_cases hd : (s.reverse.takeWhile Char.isDigit).isEmpty
  · left; simp [hd]
  · simp only [hd, if_false]
    cases hdrop : s.reverse.drop (s.reverse.takeWhile Char.isDigit).length with
    | nil => left; rfl
    | cons a rest =>
      by_cases ha : a = 'v'
      · right
        subst ha
        exact ⟨rest, rfl, rfl⟩
      · left; cases a <;> simp_all

theorem drop_takeWhile_length (p : Char → Bool) (l : List Char) :
    l.drop (l.takeWhile p).length = l.dropWhile p := by
  induction l with
  | nil => rfl
  | cons a t ih =>
    by_cases hp : p a
    · simp [List.takeWhile, List.dropWhile, hp, ih]
    · simp [List.takeWhile, List.dropWhile, hp]

theorem count_v_reverse (s : List Char) :
    s.reverse.count 'v' = s.count 'v' :=
  (s.reverse_perm).count_eq 'v'

theorem stripVersion_idem_of_count {s : List Char} (h : s.count 'v' ≤ 1) :
    stripVersion (stripVersion s) = stripVersion s := by
  rcases stripVersion_cases s with heq | ⟨rest, hdrop, hval⟩
  · rw [heq]; exact heq
  · have hnov : 'v' ∉ rest.reverse := by
      intro hmem
      have hrev : s.reverse =
          s.reverse.takeWhile Char.isDigit ++ ('v' :: rest) := by
        conv_lhs => rw [← List.takeWhile_append_dropWhile (p := Char.isDigit)
          (l := s.reverse)]
        rw [← drop_takeWhile_length Char.isDigit s.reverse, hdrop]
      have hc := congrArg (List.count 'v') hrev
      rw [List.count_append] at hc
      simp only [List.count_cons, beq_self_eq_true, if_true] at hc
      have hvrest : 'v' ∈ rest := List.mem_reverse.mp hmem
      have hpos : 0 < rest.count 'v' := List.count_pos_iff.mpr hvrest
      have hs := count_v_reverse s
      omega
    rw [hval]
    exact stripVersion_of_not_mem_v hnov

/- ### Claim C1 and C2 theorems -/

/-- Claim C2 counterexample: identifier normalization is not idempotent on every
identifier string.  `re.sub(r'v\d+$', '', ·)` removes only the last version
suffix, so on `"1v1v2"` the first application yields `"1v1"` and the second
application strips again, yielding `"1"`. -/
theorem claim_C2_counterexample :
    stripVersion (stripVersion ("1v1v2".toList)) ≠ stripVersion ("1v1v2".toList) := by
  decide

/-- Claim C2 (amended): normalization strips one trailing `v`+digits suffix and
returns the input unchanged otherwise; `normalize(normalize(id)) = normalize(id)`
holds for every identifier in which the letter `v` occurs at most once (which
covers every canonical arXiv identifier, versioned or not), and the two concrete
examples of the spec hold.  Full universal idempotence fails (see the
counterexample): a string with stacked suffixes such as `"1v1v2"` is stripped
again by a second application. -/
theorem claim_C2_normalization :
    (∀ pid : List Char, pid.count 'v' ≤ 1 →
        stripVersion (stripVersion pid) = stripVersion pid) ∧
    stripVersion ("2507.05245v1".toList) = "2507.05245".toList ∧
    stripVersion ("2507.05245".toList) = "2507.05245".toList :=
  ⟨fun _ h => stripVersion_idem_of_count h, by decide, by decide⟩

/-- Witness for the amended claim C2 at the concrete identifier
`"2507.05245v1"`. -/
theorem claim_C2_normalization_witness :
    ("2507.05245v1".toList).count 'v' ≤ 1 ∧
    stripVersion (stripVersion ("2507.05245v1".toList)) =
      stripVersion ("2507.05245v1".toList) :=
  ⟨by decide, claim_C2_normalization.1 _ (by decide)⟩

theorem mem_expandKnown_self {ids : List (List Char)} {r : List Char}
    (h : r ∈ ids) : r ∈ expandKnown ids :=
  List.mem_flatMap.mpr ⟨r, h, by simp⟩

theorem mem_expandKnown_strip {ids : List (List Char)} {r : List Char}
    (h : r ∈ ids) : stripVersion r ∈ expandKnown ids :=
  List.mem_flatMap.mpr ⟨r, h, by simp⟩

/-- Claim C1: dedup classification is sound across identifier equivalence
classes.  (1) A candidate is new (not `isAnalyzed`) iff neither its raw nor its
version-stripped identifier is in the known set, exactly as computed in `main`.
(2) Since `get_analyzed_papers` records both the raw and the normalized form of
every extracted identifier (`expandKnown`), a candidate equal to a recorded
identifier, to its stripped form, or whose stripped form equals either, is
classified as known — so an entry recorded under a versioned identifier
suppresses a later bare-identifier duplicate and vice versa.  (3) The spec's
concrete example: with known set `{"2024.01001", "2024.01002"}` the candidates
`"2024.01001"`, `"2024.01002v1"`, `"2024.01003"` classify as known, known, new. -/
theorem claim_C1_dedup_soundness :
    (∀ (known : List (List Char)) (pid : List Char),
        ¬ isAnalyzed known pid ↔ (pid ∉ known ∧ stripVersion pid ∉ known)) ∧
    (∀ (ids : List (List Char)) (r c : List Char), r ∈ ids →
        (c = r ∨ c = stripVersion r ∨ stripVersion c = r ∨
          stripVersion c = stripVersion r) →
        isAnalyzed (expandKnown ids) c) ∧
    (isAnalyzed ["2024.01001".toList, "2024.01002".toList] ("2024.01001".toList) ∧
     isAnalyzed ["2024.01001".toList, "2024.01002".toList] ("2024.01002v1".toList) ∧
     ¬ isAnalyzed ["2024.01001".toList, "2024.01002".toList] ("2024.01003".toList)) := by
  refine ⟨?_, ?_, by decide, by decide, by decide⟩
  · intro known pid
    unfold isAnalyzed
    exact not_or
  · intro ids r c hr hc
    rcases hc with h | h | h | h
    · exact Or.inl (h ▸ mem_expandKnown_self hr)
    · exact Or.inl (h ▸ mem_expandKnown_strip hr)
    · exact Or.inr (h ▸ mem_expandKnown_self hr)
    · exact Or.inr (h ▸ mem_expandKnown_strip hr)

/-- Witness for claim C1's suppression property: an entry recorded as
`"1234.5678v2"` suppresses the bare candidate `"1234.5678"`, and an entry
recorded bare suppresses the versioned candidate `"1234.5678v3"`. -/
theorem claim_C1_dedup_soundness_witness :
    isAnalyzed (expandKnown ["1234.5678v2".toList]) ("1234.5678".toList) ∧
    isAnalyzed (expandKnown ["1234.5678".toList]) ("1234.5678v3".toList) :=
  ⟨claim_C1_dedup_soundness.2.1 ["1234.5678v2".toList] ("1234.5678v2".toList)
      ("1234.5678".toList) (by decide) (Or.inr (Or.inl (by decide))),
   claim_C1_dedup_soundness.2.1 ["1234.5678".toList] ("1234.5678".toList)
      ("1234.5678v3".toList) (by decide) (Or.inr (Or.inr (Or.inl (by decide))))⟩

/- ### Papers, selection (main lines 586-619), recency and discovery
(`get_recent_papers`, lines 65-118) -/

/-- A discovered document.  `published` is the timezone-normalized publish
timestamp (seconds); the program compares such timestamps with `>=` after
stripping timezone information. -/
structure Paper where
  pid : List Char := []
  title : List Char := []
  authors : List (List Char) := []
  categories : List (List Char) := []
  published : Int := 0
  entryId : List Char := []
deriving DecidableEq

/-- One insertion step of the stable descending sort
`new_papers.sort(key=lambda p: p.published, reverse=True)`: the inserted
(earlier-discovered) element goes before the first element whose key is not
greater, so ties keep discovery order. -/
def insertDesc (x : Paper) : List Paper → List Paper
  | [] => [x]
  | y :: ys => if y.published ≤ x.published then x :: y :: ys else y :: insertDesc x ys

/-- Stable sort by publish date, newest first (Python `list.sort` with
`reverse=True` is stable). -/
def sortDesc : List Paper → List Paper
  | [] => []
  | x :: xs => insertDesc x (sortDesc xs)

/-- `papers_to_analyze = new_papers[:max_analyze]` after the sort. -/
def papersToAnalyze (cap : Nat) (newPapers : List Paper) : List Paper :=
  (sortDesc newPapers).take cap

/-- `remaining_papers = new_papers[max_analyze:]` after the sort. -/
def remainingPapers (cap : Nat) (newPapers : List Paper) : List Paper :=
  (sortDesc newPapers).drop cap

theorem mem_insertDesc {z x : Paper} {l : List Paper} :
    z ∈ insertDesc x l ↔ z = x ∨ z ∈ l := by
  induction l with
  | nil => simp [insertDesc]
  | cons y ys ih =>
    by_cases hle : y.published ≤ x.published
    · simp [insertDesc, hle]
    · simp only [insertDesc, hle, if_false, List.mem_cons, ih]
      tauto

theorem pairwise_insertDesc {x : Paper} {l : List Paper}
    (h : List.Pairwise (fun a b => b.published ≤ a.published) l) :
    List.Pairwise (fun a b => b.published ≤ a.published) (insertDesc x l) := by
  induction l with
  | nil => simp [insertDesc]
  | cons y ys ih =>
    rcases List.pairwise_cons.mp h with ⟨hy, hys⟩
    by_cases hle : y.published ≤ x.published
    · simp only [insertDesc, hle, if_true]
      refine List.pairwise_cons.mpr ⟨?_, h⟩
      intro z hz
      rcases List.mem_cons.mp hz with hz | hz
      · exact hz ▸ hle
      · exact le_trans (hy z hz) hle
    · simp only [insertDesc, hle, if_false]
      refine List.pairwise_cons.mpr ⟨?_, ih hys⟩
      intro z hz
      rcases mem_insertDesc.mp hz with hz | hz
      · exact hz ▸ le_of_lt (lt_of_not_le hle)
      · exact hy z hz

theorem sortDesc_pairwise (l : List Paper) :
    List.Pairwise (fun a b => b.published ≤ a.published) (sortDesc l) := by
  induction l with
  | nil => simp [sortDesc]
  | cons x xs ih => exact pairwise_insertDesc ih

theorem insertDesc_perm (x : Paper) (l : List Paper) :
    (insertDesc x l).Perm (x :: l) := by
  induction l with
  | nil => rfl
  | cons y ys ih =>
    by_cases hle : y.published ≤ x.published
    · simp [insertDesc, hle]
    · simp only [insertDesc, hle, if_false]
      exact (ih.cons y).trans (List.Perm.swap x y ys)

theorem sortDesc_perm (l : List Paper) : (sortDesc l).Perm l := by
  induction l with
  | nil => rfl
  | cons x xs ih => exact (insertDesc_perm x (sortDesc xs)).trans (ih.cons x)

theorem filter_insertDesc (x : Paper) (l : List Paper) (d : Int) :
    (insertDesc x l).filter (fun p => decide (p.published = d)) =
      if x.published = d then
        x :: l.filter (fun p => decide (p.published = d))
      else l.filter (fun p => decide (p.published = d)) := by
  induction l with
  | nil => by_cases hx : x.published = d <;> simp [insertDesc, hx]
  | cons y ys ih =>
    by_cases hle : y.published ≤ x.published
    · rw [insertDesc, if_pos hle]
      by_cases hx : x.published = d <;> simp [List.filter_cons, hx]
    · rw [insertDesc, if_neg hle]
      have hlt : x.published < y.published := lt_of_not_le hle
      by_cases hx : x.published = d
      · have hy : ¬ y.published = d := by
          intro hy
          rw [hx] at hlt
          rw [hy] at hlt
          exact lt_irrefl d hlt
        simp [List.filter_cons, hx, hy, ih]
      · by_cases hy : y.published = d <;>
          simp [List.filter_cons, hx, hy, ih]

theorem sortDesc_filter (l : List Paper) (d : Int) :
    (sortDesc l).filter (fun p => decide (p.published = d)) =
      l.filter (fun p => decide (p.published = d)) := by
  induction l with
  | nil => rfl
  | cons x xs ih =>
    by_cases hx : x.published = d <;>
      simp [sortDesc, filter_insertDesc, hx, List.filter, ih]

/-- Claim C4: per-topic selection takes exactly the per-run cap.  The new
candidates are stably sorted by publish date descending (sortedness, the sorted
list is a permutation of the input, and for each date the candidates with that
date keep their discovery order), the first `analyze_cap` form the selected set
and the rest the deferred backlog, the selected count is
`min cap (number of candidates)`; with the concrete 8 candidates below and cap 5
exactly the 5 newest are selected (the tie at date 30 keeps discovery order) and
3 are deferred, and with 0 candidates selection yields the empty set. -/
theorem claim_C4_selection_cap :
    (∀ (l : List Paper) (cap : Nat),
        papersToAnalyze cap l ++ remainingPapers cap l = sortDesc l ∧
        (papersToAnalyze cap l).length = min cap l.length ∧
        List.Pairwise (fun a b => b.published ≤ a.published) (sortDesc l) ∧
        (sortDesc l).Perm l ∧
        (∀ d : Int, (sortDesc l).filter (fun p => decide (p.published = d)) =
            l.filter (fun p => decide (p.published = d)))) ∧
    (papersToAnalyze 5
        [{ pid := ['a'], published := 10 }, { pid := ['b'], published := 30 },
         { pid := ['c'], published := 30 }, { pid := ['d'], published := 50 },
         { pid := ['e'], published := 20 }, { pid := ['f'], published := 60 },
         { pid := ['g'], published := 40 }, { pid := ['h'], published := 15 }] =
      [{ pid := ['f'], published := 60 }, { pid := ['d'], published := 50 },
       { pid := ['g'], published := 40 }, { pid := ['b'], published := 30 },
       { pid := ['c'], published := 30 }] ∧
     (remainingPapers 5
        [{ pid := ['a'], published := 10 }, { pid := ['b'], published := 30 },
         { pid := ['c'], published := 30 }, { pid := ['d'], published := 50 },
         { pid := ['e'], published := 20 }, { pid := ['f'], published := 60 },
         { pid := ['g'], published := 40 }, { pid := ['h'], published := 15 }]).length = 3 ∧
     papersToAnalyze 5 [] = [] ∧ remainingPapers 5 [] = []) := by
  refine ⟨?_, by decide, by decide, by decide, by decide⟩
  intro l cap
  refine ⟨List.take_append_drop cap (sortDesc l), ?_, sortDesc_pairwise l,
    sortDesc_perm l, sortDesc_filter l⟩
  rw [papersToAnalyze, List.length_take, (sortDesc_perm l).length_eq]

/- ### Recency window and query fallback (`get_recent_papers`) -/

/-- `recent_cutoff = today - datetime.timedelta(days=7)` (seconds). -/
def recentCutoff (now : Int) : Int := now - 7 * 86400

/-- The recency filter of `get_recent_papers`: keep papers whose
timezone-normalized publish timestamp satisfies `paper_date >= recent_cutoff`. -/
def recentOnly (now : Int) (papers : List Paper) : List Paper :=
  papers.filter (fun p => decide (recentCutoff now ≤ p.published))

/-- `" OR ".join(...)`-style separator join. -/
def joinSep (sep : List Char) : List (List Char) → List Char
  | [] => []
  | [x] => x
  | x :: y :: xs => x ++ sep ++ joinSep sep (y :: xs)

/-- `category_query = " OR ".join([f"cat:{cat}" for cat in categories])`. -/
def combinedQuery (cats : List (List Char)) : List Char :=
  joinSep (" OR ".toList) (cats.map (fun c => "cat:".toList ++ c))

/-- `get_recent_papers`: query the catalog (an oracle keyed by the query string
and result cap) with the combined category query and apply the 7-day recency
filter; on any failure, retry once with just the first category string and
return at most `cap` results unfiltered; if that fails too (including the
`categories[0]` lookup on an empty list), return the empty list. -/
def getRecentPapers (search : List Char → Nat → Except (List Char) (List Paper))
    (now : Int) (cats : List (List Char)) (cap : Nat) : List Paper :=
  match search (combinedQuery cats) cap with
  | .ok results => recentOnly now results
  | .error _ =>
    match cats with
    | [] => []
    | c :: _ =>
      match search c cap with
      | .ok results => results.take cap
      | .error _ => []

/-- Claim C5: the recency window is inclusive at its lower edge.  On the
successful query path `get_recent_papers` applies `recentOnly`, and a paper
published exactly at `now - 7 days` is kept by that filter while one published
at `now - 8 days` is excluded. -/
theorem claim_C5_recency_boundary :
    (∀ (search : List Char → Nat → Except (List Char) (List Paper)) (now : Int)
        (cats : List (List Char)) (cap : Nat) (results : List Paper),
        search (combinedQuery cats) cap = .ok results →
        getRecentPapers search now cats cap = recentOnly now results) ∧
    (∀ (now : Int) (p : Paper) (ps : List Paper), p ∈ ps →
        (p.published = now - 7 * 86400 → p ∈ recentOnly now ps) ∧
        (p.published = now - 8 * 86400 → p ∉ recentOnly now ps)) := by
  constructor
  · intro search now cats cap results h
    unfold getRecentPapers
    rw [h]
  · intro now p ps hp
    constructor
    · intro h7
      refine List.mem_filter.mpr ⟨hp, ?_⟩
      simp only [decide_eq_true_eq, recentCutoff, h7]
      omega
    · intro h8 hmem
      have := (List.mem_filter.mp hmem).2
      simp only [decide_eq_true_eq, recentCutoff, h8] at this
      omega

/-- Witness for claim C5 at `now = 0`: the paper published at `-7` days is in
the filtered list, the one published at `-8` days is not, and a concrete
successful query goes through the recency filter. -/
theorem claim_C5_recency_boundary_witness :
    getRecentPapers (fun _ _ => Except.ok []) 0 [] 30 = recentOnly 0 [] ∧
    ({ pid := ['x'], published := -604800 } : Paper) ∈
      recentOnly 0 [{ pid := ['x'], published := -604800 }] ∧
    ({ pid := ['y'], published := -691200 } : Paper) ∉
      recentOnly 0 [{ pid := ['y'], published := -691200 }] :=
  ⟨claim_C5_recency_boundary.1 (fun _ _ => Except.ok []) 0 [] 30 [] rfl,
   (claim_C5_recency_boundary.2 0 { pid := ['x'], published := -604800 }
      [{ pid := ['x'], published := -604800 }] (by simp)).1 (by decide),
   (claim_C5_recency_boundary.2 0 { pid := ['y'], published := -691200 }
      [{ pid := ['y'], published := -691200 }] (by simp)).2 (by decide)⟩

/-- Claim C7: discovery never propagates a transport error.  If the
combined-filter query fails, exactly one fallback query with just the first
filter string is made; if that succeeds, at most `cap` results are returned,
and if it also fails, discovery returns the empty list (it is a total function,
so no error escapes). -/
theorem claim_C7_discovery_fallback :
    ∀ (search : List Char → Nat → Except (List Char) (List Paper)) (now : Int)
      (c : List Char) (cs : List (List Char)) (cap : Nat) (e : List Char),
      search (combinedQuery (c :: cs)) cap = .error e →
      (∀ results, search c cap = .ok results →
          getRecentPapers search now (c :: cs) cap = results.take cap ∧
          (getRecentPapers search now (c :: cs) cap).length ≤ cap) ∧
      (∀ e₂, search c cap = .error e₂ →
          getRecentPapers search now (c :: cs) cap = []) := by
  intro search now c cs cap e herr
  constructor
  · intro results hok
    simp only [getRecentPapers, herr, hok, List.length_take]
    exact ⟨trivial, Nat.min_le_left _ _⟩
  · intro e₂ herr₂
    simp only [getRecentPapers, herr, herr₂]

/-- Witness for claim C7 with a concrete oracle that fails the combined query
`cat:cs.SE` and serves three results for the plain fallback query `cs.SE`:
with `cap = 2` the fallback returns the first two results, and with an
always-failing oracle discovery returns the empty list. -/
theorem claim_C7_discovery_fallback_witness :
    getRecentPapers
      (fun q _ => if q = "cat:cs.SE".toList then Except.error ("down".toList)
        else Except.ok [{ pid := ['1'] }, { pid := ['2'] }, { pid := ['3'] }])
      0 ["cs.SE".toList] 2 =
      [{ pid := ['1'] }, { pid := ['2'] }] ∧
    getRecentPapers (fun _ _ => Except.error ("down".toList)) 0 ["cs.SE".toList] 2 = [] :=
  ⟨by
    have h := (claim_C7_discovery_fallback
      (fun q _ => if q = "cat:cs.SE".toList then Except.error ("down".toList)
        else Except.ok [{ pid := ['1'] }, { pid := ['2'] }, { pid := ['3'] }])
      0 ("cs.SE".toList) [] 2 ("down".toList) rfl).1
      [{ pid := ['1'] }, { pid := ['2'] }, { pid := ['3'] }] rfl
    rw [h.1]
    rfl,
   (claim_C7_discovery_fallback (fun _ _ => Except.error ("down".toList)) 0
      ("cs.SE".toList) [] 2 ("down".toList) rfl).2 ("down".toList) rfl⟩

/- ### Enrichment loop (`analyze_paper_with_chatgpt`, `download_paper`,
`delete_pdf` and the per-paper loop in `main`, lines 622-636) -/

/-- Observable steps of the enrichment loop, in program order. -/
inductive PipelineEvent where
  | downloadOk (p : Paper)
  | downloadFailed (p : Paper)
  | analyzed (p : Paper)
  | deletedPdf (p : Paper)
deriving DecidableEq

/-- The sentinel text returned when the analysis call raises:
`f"**Paper Analysis Error**: {str(e)}"`. -/
def analysisErrorText (e : List Char) : List Char :=
  "**Paper Analysis Error**: ".toList ++ e

/-- `analyze_paper_with_chatgpt`: invoke the analysis service (an oracle); on
success return its text, on failure return the sentinel error text — the
function never raises. -/
def analyzePaperWithChatgpt (call : Paper → Except (List Char) (List Char))
    (p : Paper) : List Char :=
  match call p with
  | .ok analysis => analysis
  | .error e => analysisErrorText e

/-- The per-paper loop of `main`: download (oracle, `false` = failure); if the
artifact was acquired, analyze (success or sentinel both enter the result list)
and then delete the artifact; a failed download records nothing and deletes
nothing.  Returns the results and the event trace in program order. -/
def processPapers (download : Paper → Bool)
    (call : Paper → Except (List Char) (List Char)) :
    List Paper → List (Paper × List Char) × List PipelineEvent
  | [] => ([], [])
  | p :: ps =>
    let rest := processPapers download call ps
    if download p then
      ((p, analyzePaperWithChatgpt call p) :: rest.1,
        PipelineEvent.downloadOk p :: PipelineEvent.analyzed p ::
          PipelineEvent.deletedPdf p :: rest.2)
    else (rest.1, PipelineEvent.downloadFailed p :: rest.2)

/-- Claim C6: enrichment is resilient and cleans up unconditionally.
(1) When every artifact is acquired, one result per selected paper is produced.
(2) An analysis failure enters the result stream as the sentinel error text,
exactly like a success.  (3) For every paper whose artifact was acquired, the
deletion event occurs, after the analysis event (the ordered pair is a sublist
of the trace) — whether the analysis succeeded or failed.  (4) Concretely,
with 3 selected papers and the middle analysis failing, 3 results are produced,
the middle one being the sentinel. -/
theorem claim_C6_enrichment_resilience :
    (∀ (download : Paper → Bool) (call : Paper → Except (List Char) (List Char))
        (ps : List Paper), (∀ p ∈ ps, download p = true) →
        (processPapers download call ps).1.length = ps.length) ∧
    (∀ (download : Paper → Bool) (call : Paper → Except (List Char) (List Char))
        (ps : List Paper) (p : Paper) (e : List Char), p ∈ ps →
        download p = true → call p = .error e →
        (p, analysisErrorText e) ∈ (processPapers download call ps).1) ∧
    (∀ (download : Paper → Bool) (call : Paper → Except (List Char) (List Char))
        (ps : List Paper) (p : Paper), p ∈ ps → download p = true →
        List.Sublist [PipelineEvent.analyzed p, PipelineEvent.deletedPdf p]
          (processPapers download call ps).2) ∧
    ((processPapers (fun _ => true)
        (fun p => if p.pid = ['B'] then Except.error ("boom".toList)
          else Except.ok ("fine".toList))
        [{ pid := ['A'] }, { pid := ['B'] }, { pid := ['C'] }]).1 =
      [({ pid := ['A'] }, "fine".toList),
       ({ pid := ['B'] }, analysisErrorText ("boom".toList)),
       ({ pid := ['C'] }, "fine".toList)]) := by
  refine ⟨?_, ?_, ?_, by rfl⟩
  · intro download call ps hall
    induction ps with
    | nil => rfl
    | cons p ps ih =>
      have hp : download p = true := hall p (List.mem_cons_self _ _)
      simp only [processPapers, hp, if_true, List.length_cons]
      rw [ih (fun q hq => hall q (List.mem_cons_of_mem _ hq))]
  · intro download call ps p e hp hdl herr
    induction ps with
    | nil => cases hp
    | cons q qs ih =>
      rcases List.mem_cons.mp hp with hq | hq
      · subst hq
        simp only [processPapers, hdl, if_true]
        have hs : analyzePaperWithChatgpt call p = analysisErrorText e := by
          simp [analyzePaperWithChatgpt, herr]
        rw [hs]
        exact List.mem_cons_self _ _
      · by_cases hdq : download q = true
        · simp only [processPapers, hdq, if_true]
          exact List.mem_cons_of_mem _ (ih hq)
        · simp only [processPapers, hdq, if_false]
          exact ih hq
  · intro download call ps p hp hdl
    induction ps with
    | nil => cases hp
    | cons q qs ih =>
      rcases List.mem_cons.mp hp with hq | hq
      · subst hq
        simp only [processPapers, hdl, if_true]
        exact List.Sublist.cons _ (List.Sublist.cons₂ _
          (List.Sublist.cons₂ _ (List.nil_sublist _)))
      · by_cases hdq : download q = true
        · simp only [processPapers, hdq, if_true]
          exact (ih hq).cons _ |>.cons _ |>.cons _
        · simp only [processPapers, hdq, if_false]
          exact (ih hq).cons _

/-- Witness for claim C6 at the concrete 3-paper run with the middle analysis
failing: all three properties instantiated on it. -/
theorem claim_C6_enrichment_resilience_witness :
    (processPapers (fun _ => true)
        (fun p => if p.pid = ['B'] then Except.error ("boom".toList)
          else Except.ok ("fine".toList))
        [{ pid := ['A'] }, { pid := ['B'] }, { pid := ['C'] }]).1.length = 3 ∧
    (({ pid := ['B'] } : Paper), analysisErrorText ("boom".toList)) ∈
      (processPapers (fun _ => true)
        (fun p => if p.pid = ['B'] then Except.error ("boom".toList)
          else Except.ok ("fine".toList))
        [{ pid := ['A'] }, { pid := ['B'] }, { pid := ['C'] }]).1 ∧
    List.Sublist
      [PipelineEvent.analyzed { pid := ['B'] },
       PipelineEvent.deletedPdf { pid := ['B'] }]
      (processPapers (fun _ => true)
        (fun p => if p.pid = ['B'] then Except.error ("boom".toList)
          else Except.ok ("fine".toList))
        [{ pid := ['A'] }, { pid := ['B'] }, { pid := ['C'] }]).2 :=
  ⟨claim_C6_enrichment_resilience.1 (fun _ => true)
      (fun p => if p.pid = ['B'] then Except.error ("boom".toList)
        else Except.ok ("fine".toList))
      [{ pid := ['A'] }, { pid := ['B'] }, { pid := ['C'] }]
      (fun _ _ => rfl),
   claim_C6_enrichment_resilience.2.1 (fun _ => true)
      (fun p => if p.pid = ['B'] then Except.error ("boom".toList)
        else Except.ok ("fine".toList))
      [{ pid := ['A'] }, { pid := ['B'] }, { pid := ['C'] }]
      { pid := ['B'] } ("boom".toList) (by simp) rfl rfl,
   claim_C6_enrichment_resilience.2.2.1 (fun _ => true)
      (fun p => if p.pid = ['B'] then Except.error ("boom".toList)
        else Except.ok ("fine".toList))
      [{ pid := ['A'] }, { pid := ['B'] }, { pid := ['C'] }]
      { pid := ['B'] } (by simp) rfl⟩

/- ### History load (`get_analyzed_papers`, lines 239-276) -/

/-- Character class `[^)\s\n]` of the identifier captures. -/
def isIdChar (c : Char) : Bool :=
  !(c = ')' : Bool) && !(isPySpace c)

/-- If the first argument is a leading segment of the second, return the rest
of the second; else `none`. -/
def stripLead : List Char → List Char → Option (List Char)
  | [], s => some s
  | _ :: _, [] => none
  | p :: ps, c :: cs => if p = c then stripLead ps cs else none

def absPatS : List Char := "https://arxiv.org/abs/".toList

def absPatP : List Char := "http://arxiv.org/abs/".toList

def arxPat : List Char := "arxiv:".toList

/-- Try to match `https?://arxiv\.org/abs/([^)\s\n]+)` at the head of the
string; on success return the capture (greedy, nonempty) and the remainder
after it.  `s?` is tried greedily first, exactly like the regex engine. -/
def tryAbs (s : List Char) : Option (List Char × List Char) :=
  match stripLead absPatS s with
  | some r =>
    let cap := r.takeWhile isIdChar
    if cap.isEmpty then none else some (cap, r.drop cap.length)
  | none =>
    match stripLead absPatP s with
    | some r =>
      let cap := r.takeWhile isIdChar
      if cap.isEmpty then none else some (cap, r.drop cap.length)
    | none => none

/-- Try to match `arxiv:([^)\s\n]+)` at the head of the string. -/
def tryArx (s : List Char) : Option (List Char × List Char) :=
  match stripLead arxPat s with
  | some r =>
    let cap := r.takeWhile isIdChar
    if cap.isEmpty then none else some (cap, r.drop cap.length)
  | none => none

/-- `re.findall`: all non-overlapping matches, scanning left to right and
resuming after each match.  The fuel argument (instantiated with the string
length, which bounds the number of scan steps) makes the recursion structural. -/
def findAllGo (pat : List Char → Option (List Char × List Char)) :
    Nat → List Char → List (List Char)
  | 0, _ => []
  | _ + 1, [] => []
  | fuel + 1, c :: cs =>
    match pat (c :: cs) with
    | some (cap, rest) => cap :: findAllGo pat fuel rest
    | none => findAllGo pat fuel cs

/-- `get_analyzed_papers`: `none` models a missing history file, `some (error e)`
a read that raises, `some (ok content)` a successful read.  On the successful
path the two identifier patterns are collected and the set is expanded with the
normalized form of every match; on the other two paths the empty set is
returned (fail-soft). -/
def getAnalyzedPapers : Option (Except (List Char) (List Char)) → List (List Char)
  | none => []
  | some (.error _) => []
  | some (.ok content) =>
    expandKnown (findAllGo tryAbs content.length content ++
      findAllGo tryArx content.length content)

/-- Claim C8: history load fails soft.  A missing history file and a read or
parse error both yield the empty known-identifier set rather than failing, and
with an empty known set every candidate classifies as new (the run proceeds as
if nothing were known). -/
theorem claim_C8_history_load_fails_soft :
    getAnalyzedPapers none = [] ∧
    (∀ e, getAnalyzedPapers (some (Except.error e)) = []) ∧
    (∀ pid, ¬ isAnalyzed [] pid) :=
  ⟨rfl, fun _ => rfl, fun pid h => by
    rcases h with h | h
    · cases h
    · cases h⟩

/- ### Run finalization (`main`, lines 651-678) -/

/-- The two externally visible side effects of the tail of `main`. -/
inductive SideEffect where
  | writeStore (content : List Char)
  | sendEmail (content : List Char)
deriving DecidableEq

/-- First-seen-order deduplication of domain labels (the iteration order of the
Python dict used to group results by domain). -/
def seenDedup (seen : List (List Char)) : List (List Char) → List (List Char)
  | [] => []
  | d :: ds => if d ∈ seen then seenDedup seen ds else d :: seenDedup (d :: seen) ds

/-- Domains of a result list `(paper, analysis, domain)` in first-seen order. -/
def domainsOf (rs : List (Paper × List Char × List Char)) : List (List Char) :=
  seenDedup [] (rs.map (fun r => r.2.2))

/-- Results belonging to one domain, in production order. -/
def resultsForDomain (rs : List (Paper × List Char × List Char))
    (d : List Char) : List (Paper × List Char) :=
  (rs.filter (fun r => decide (r.2.2 = d))).map (fun r => (r.1, r.2.1))

/-- The per-paper block of `write_to_conclusion_with_domains`.  The publish
date is rendered through `toString` (standing in for `strftime`). -/
def conclusionBlock (pr : Paper × List Char) : List Char :=
  "#### ".toList ++ pr.1.title ++ "\n".toList ++
  "**作者**: ".toList ++ joinSep (", ".toList) pr.1.authors ++ "\n".toList ++
  "**类别**: ".toList ++ joinSep (", ".toList) pr.1.categories ++ "\n".toList ++
  "**发布日期**: ".toList ++ (toString pr.1.published).toList ++ "\n".toList ++
  "**链接**: ".toList ++ pr.1.entryId ++ "\n\n".toList ++
  pr.2 ++ "\n\n".toList ++ "---\n\n".toList

/-- The per-paper block of `format_email_content_with_domains`. -/
def emailBlock (pr : Paper × List Char) : List Char :=
  "### ".toList ++ pr.1.title ++ "\n\n".toList ++
  "**Authors**: ".toList ++ joinSep (", ".toList) pr.1.authors ++ "\n".toList ++
  "**Categories**: ".toList ++ joinSep (", ".toList) pr.1.categories ++ "\n".toList ++
  "**Published**: ".toList ++ (toString pr.1.published).toList ++ "\n".toList ++
  "**ArXiv Link**: ".toList ++ pr.1.entryId ++ "\n\n".toList ++
  pr.2 ++ "\n\n".toList ++ "---\n\n".toList

/-- The dated run-section header appended to the history store. -/
def renderHeader (today : List Char) : List Char :=
  "\n\n## ArXiv论文 - 最近7天 (截至 ".toList ++ today ++ ")\n\n".toList

/-- `write_to_conclusion_with_domains`: dated header, then one subsection per
domain with its per-paper blocks. -/
def writeToConclusionWithDomains (today : List Char)
    (rs : List (Paper × List Char × List Char)) : List Char :=
  renderHeader today ++
    (domainsOf rs).flatMap (fun d =>
      "### ".toList ++ d ++ " 领域\n\n".toList ++
        (resultsForDomain rs d).flatMap conclusionBlock)

/-- `format_email_content_with_domains`. -/
def formatEmailContentWithDomains (today : List Char)
    (rs : List (Paper × List Char × List Char)) : List Char :=
  "# ArXiv Paper Analysis Report (".toList ++ today ++ ")\n\n".toList ++
    (domainsOf rs).flatMap (fun d =>
      "## ".toList ++ d ++ " 领域\n\n".toList ++
        (resultsForDomain rs d).flatMap emailBlock)

/-- The tail of `main`: `if all_papers_analyses:` write the grouped results to
the history store and send the notification email; otherwise do neither. -/
def finalizeRun (today : List Char)
    (rs : List (Paper × List Char × List Char)) : List SideEffect :=
  match rs with
  | [] => []
  | _ :: _ =>
    [SideEffect.writeStore (writeToConclusionWithDomains today rs),
     SideEffect.sendEmail (formatEmailContentWithDomains today rs)]

/-- Claim C10: when a run produces no enrichment results, the history store is
not written (in particular no dated section header is appended) and no email is
attempted; any store write or email implies the result list was non-empty; a
store write always begins with the dated header; and when the result list is
non-empty both side effects occur. -/
theorem claim_C10_empty_run_frame :
    (∀ today, finalizeRun today [] = []) ∧
    (∀ today rs c, SideEffect.writeStore c ∈ finalizeRun today rs →
        rs ≠ [] ∧ ∃ t, c = renderHeader today ++ t) ∧
    (∀ today rs c, SideEffect.sendEmail c ∈ finalizeRun today rs → rs ≠ []) ∧
    (∀ today rs, rs ≠ [] →
        SideEffect.writeStore (writeToConclusionWithDomains today rs) ∈
          finalizeRun today rs ∧
        SideEffect.sendEmail (formatEmailContentWithDomains today rs) ∈
          finalizeRun today rs) := by
  refine ⟨fun _ => rfl, ?_, ?_, ?_⟩
  · intro today rs c hmem
    cases rs with
    | nil => cases hmem
    | cons r rs =>
      refine ⟨by simp, ?_⟩
      rcases List.mem_cons.mp hmem with h | h
      · cases h
        exact ⟨_, rfl⟩
      · rcases List.mem_cons.mp h with h | h
        · cases h
        · cases h
  · intro today rs c hmem
    cases rs with
    | nil => cases hmem
    | cons r rs => simp
  · intro today rs hne
    cases rs with
    | nil => exact absurd rfl hne
    | cons r rs =>
      exact ⟨List.mem_cons_self _ _,
        List.mem_cons_of_mem _ (List.mem_cons_self _ _)⟩

/-- Witness for claim C10 at a concrete one-result run. -/
theorem claim_C10_empty_run_frame_witness :
    SideEffect.writeStore
        (writeToConclusionWithDomains ("2026-01-01".toList)
          [({ pid := ['A'] }, "text".toList, "dom".toList)]) ∈
      finalizeRun ("2026-01-01".toList)
        [({ pid := ['A'] }, "text".toList, "dom".toList)] ∧
    SideEffect.sendEmail
        (formatEmailContentWithDomains ("2026-01-01".toList)
          [({ pid := ['A'] }, "text".toList, "dom".toList)]) ∈
      finalizeRun ("2026-01-01".toList)
        [({ pid := ['A'] }, "text".toList, "dom".toList)] :=
  claim_C10_empty_run_frame.2.2.2 ("2026-01-01".toList)
    [({ pid := ['A'] }, "text".toList, "dom".toList)] (by simp)

/- ### Compaction (`clean_duplicate_entries`, lines 188-237) -/

/-- `true` on every character except a newline — the character class of the
non-greedy title capture `(.+?)` (Python `.` does not match `\n`). -/
def notNL (c : Char) : Bool := c ≠ '\n'

/-- One attempt of the section pattern `\n### (.+?)\n` at the head of the
string: a newline, the literal `### `, a nonempty run of non-newline
characters (the title — non-greedy up to the next newline, which is exactly
the run up to the first following newline), and that closing newline.  On
success returns the captured title and the remainder after the match. -/
def matchAt (s : List Char) : Option (List Char × List Char) :=
  match s with
  | c0 :: c1 :: c2 :: c3 :: c4 :: rest =>
    if c0 = '\n' ∧ c1 = '#' ∧ c2 = '#' ∧ c3 = '#' ∧ c4 = ' ' then
      let t := rest.takeWhile notNL
      if t.isEmpty then none
      else if rest.length ≤ t.length then none
      else some (t, rest.drop (t.length + 1))
    else none
  | _ => none

/-- `re.split(r'\n### (.+?)\n', content)`, modelled with a fuel argument (the
scan advances one character per non-matching position and consumes at least 7
characters per match, so the string length is enough fuel). -/
def splitGo : Nat → List Char → List Char × List (List Char × List Char)
  | 0, s => (s, [])
  | _ + 1, [] => ([], [])
  | fuel + 1, c :: cs =>
    match matchAt (c :: cs) with
    | some (t, rest) =>
      let r := splitGo fuel rest
      ([], (t, r.1) :: r.2)
    | none =>
      let r := splitGo fuel cs
      (c :: r.1, r.2)

/-- The section split: the preamble before the first section title, and the
(title, body) pairs. -/
def splitSections (s : List Char) : List Char × List (List Char × List Char) :=
  splitGo s.length s

/-- The raw text of one parsed entry: exactly the characters the splitter
consumed and returned for it. -/
def entryRaw (t b : List Char) : List Char :=
  '\n' :: '#' :: '#' :: '#' :: ' ' :: (t ++ '\n' :: b)

/-- Concatenated raw text of a list of entries. -/
def joinRaw : List (List Char × List Char) → List Char
  | [] => []
  | (t, b) :: es => entryRaw t b ++ joinRaw es

/-- The re-emission `cleaned_content += f"\n### {paper_title}\n{paper_content}"`,
with the title stripped as in the source. -/
def renderEntries : List (List Char × List Char) → List Char
  | [] => []
  | (t, b) :: es => entryRaw (pyStrip t) b ++ renderEntries es

/-- `re.search(r'https?://arxiv\.org/abs/([^)\s\n]+)', body)`: the capture of
the leftmost match, if any. -/
def extractId : List Char → Option (List Char)
  | [] => none
  | c :: cs =>
    match tryAbs (c :: cs) with
    | some (cap, _) => some cap
    | none => extractId cs

/-- The dedup pass over parsed entries with the running `seen_papers` set: an
entry with an extractable identifier is dropped iff its raw or its
version-stripped identifier was already seen, and on keeping it both forms are
registered; entries without an extractable identifier are always kept. -/
def cleanEntries (seen : List (List Char)) :
    List (List Char × List Char) → List (List Char × List Char)
  | [] => []
  | (t, b) :: es =>
    match extractId b with
    | some pid =>
      if pid ∈ seen ∨ stripVersion pid ∈ seen then cleanEntries seen es
      else (t, b) :: cleanEntries (stripVersion pid :: pid :: seen) es
    | none => (t, b) :: cleanEntries seen es

/-- `clean_duplicate_entries` as a content transformation: split, keep the
preamble verbatim, dedup the entries, re-emit with stripped titles. -/
def cleanDuplicateEntries (content : List Char) : List Char :=
  (splitSections content).1 ++
    renderEntries (cleanEntries [] (splitSections content).2)

/- ### `takeWhile`/`dropWhile` utilities -/

theorem takeWhile_append_of_forall {p : Char → Bool} {u : List Char}
    (hu : ∀ c ∈ u, p c = true) {a : Char} (ha : p a = false) (v : List Char) :
    (u ++ a :: v).takeWhile p = u := by
  induction u with
  | nil => simp [List.takeWhile, ha]
  | cons c u ih =>
    have hc : p c = true := hu c (List.mem_cons_self _ _)
    simp only [List.cons_append, List.takeWhile_cons, hc, if_true]
    rw [ih (fun d hd => hu d (List.mem_cons_of_mem _ hd))]

theorem takeWhile_append_stop {p : Char → Bool} {a : Char} (ha : p a = false)
    (u v : List Char) : (u ++ a :: v).takeWhile p = u.takeWhile p := by
  induction u with
  | nil => simp [List.takeWhile, ha]
  | cons c u ih =>
    by_cases hc : p c <;> simp [List.takeWhile_cons, hc, ih]

theorem dropWhile_head_false {p : Char → Bool} :
    ∀ {l : List Char} {a : Char} {d : List Char}, l.dropWhile p = a :: d → p a = false := by
  intro l
  induction l with
  | nil => intro a d h; cases h
  | cons c cs ih =>
    intro a d h
    by_cases hc : p c
    · rw [List.dropWhile_cons_of_pos hc] at h
      exact ih h
    · rw [List.dropWhile_cons_of_neg hc] at h
      cases h
      simpa using hc

theorem drop_len_append (u v : List Char) : (u ++ v).drop u.length = v := by
  induction u with
  | nil => rfl
  | cons c u ih => simpa using ih

theorem drop_len_succ_append (t : List Char) (a : Char) (b : List Char) :
    (t ++ a :: b).drop (t.length + 1) = b := by
  have h : t ++ a :: b = (t ++ [a]) ++ b := by simp
  have hl : (t ++ [a]).length = t.length + 1 := by simp
  rw [h, ← hl, drop_len_append]

theorem exists_break {p : Char → Bool} (w : List Char)
    (hlt : (w.takeWhile p).length < w.length) :
    ∃ a d, w = w.takeWhile p ++ a :: d ∧ p a = false ∧
      w.drop ((w.takeWhile p).length + 1) = d := by
  have hsplit := (List.takeWhile_append_dropWhile (p := p) (l := w)).symm
  cases hdw : w.dropWhile p with
  | nil =>
    exfalso
    rw [hdw, List.append_nil] at hsplit
    rw [← hsplit] at hlt
    exact lt_irrefl _ hlt
  | cons a d =>
    have hw : w = w.takeWhile p ++ a :: d := by
      conv_lhs => rw [hsplit]
      rw [hdw]
    refine ⟨a, d, hw, dropWhile_head_false hdw, ?_⟩
    nth_rewrite 2 [hw]
    exact drop_len_succ_append _ _ _

theorem mem_takeWhile_pred {p : Char → Bool} :
    ∀ {l : List Char} {c : Char}, c ∈ l.takeWhile p → p c = true := by
  intro l
  induction l with
  | nil => intro c h; cases h
  | cons a as ih =>
    intro c h
    by_cases ha : p a
    · rw [List.takeWhile_cons_of_pos ha] at h
      rcases List.mem_cons.mp h with h | h
      · exact h ▸ ha
      · exact ih h
    · rw [List.takeWhile_cons_of_neg ha] at h
      cases h

/- ### `matchAt` lemmas -/

theorem notNL_false_iff {c : Char} : notNL c = false ↔ c = '\n' := by
  simp [notNL]

theorem takeWhile_length_le (p : Char → Bool) (l : List Char) :
    (l.takeWhile p).length ≤ l.length := by
  induction l with
  | nil => simp
  | cons a t ih =>
    by_cases hp : p a
    · simp only [List.takeWhile_cons, hp, if_true, List.length_cons]
      omega
    · simp [List.takeWhile_cons, hp]

theorem matchAt_cons5 (c0 c1 c2 c3 c4 : Char) (w : List Char) :
    matchAt (c0 :: c1 :: c2 :: c3 :: c4 :: w) =
      if c0 = '\n' ∧ c1 = '#' ∧ c2 = '#' ∧ c3 = '#' ∧ c4 = ' ' then
        if (w.takeWhile notNL).isEmpty then none
        else if w.length ≤ (w.takeWhile notNL).length then none
        else some (w.takeWhile notNL, w.drop ((w.takeWhile notNL).length + 1))
      else none := rfl

theorem matchAt_some_iff {s t r : List Char} :
    matchAt s = some (t, r) ↔
      ∃ w, s = '\n' :: '#' :: '#' :: '#' :: ' ' :: w ∧
        t = w.takeWhile notNL ∧ ¬ t.isEmpty ∧ t.length < w.length ∧
        r = w.drop (t.length + 1) := by
  constructor
  · intro h
    rcases s with _ | ⟨c0, s⟩
    · exact Option.noConfusion h
    rcases s with _ | ⟨c1, s⟩
    · exact Option.noConfusion h
    rcases s with _ | ⟨c2, s⟩
    · exact Option.noConfusion h
    rcases s with _ | ⟨c3, s⟩
    · exact Option.noConfusion h
    rcases s with _ | ⟨c4, w⟩
    · exact Option.noConfusion h
    rw [matchAt_cons5] at h
    by_cases hc : c0 = '\n' ∧ c1 = '#' ∧ c2 = '#' ∧ c3 = '#' ∧ c4 = ' '
    · rw [if_pos hc] at h
      obtain ⟨h0, h1, h2, h3, h4⟩ := hc
      subst h0; subst h1; subst h2; subst h3; subst h4
      by_cases he : (w.takeWhile notNL).isEmpty
      · rw [if_pos he] at h
        exact Option.noConfusion h
      · rw [if_neg he] at h
        by_cases hl : w.length ≤ (w.takeWhile notNL).length
        · rw [if_pos hl] at h
          exact Option.noConfusion h
        · rw [if_neg hl] at h
          injection h with h
          injection h with h₁ h₂
          subst h₁
          exact ⟨w, rfl, rfl, he, Nat.lt_of_not_le hl, h₂.symm⟩
    · rw [if_neg hc] at h
      exact Option.noConfusion h
  · rintro ⟨w, rfl, rfl, hne, hlt, rfl⟩
    rw [matchAt_cons5, if_pos ⟨rfl, rfl, rfl, rfl, rfl⟩, if_neg hne,
      if_neg (Nat.not_le.mpr hlt)]

theorem matchAt_entry (t b : List Char) (hne : ¬ t.isEmpty) (hnl : '\n' ∉ t) :
    matchAt (entryRaw t b) = some (t, b) := by
  rw [matchAt_some_iff]
  refine ⟨t ++ '\n' :: b, rfl, ?_, hne, ?_, ?_⟩
  · rw [takeWhile_append_of_forall ?_ (by rw [notNL_false_iff]) b]
    intro c hc
    simp only [notNL, decide_eq_true_eq]
    intro hceq
    exact hnl (hceq ▸ hc)
  · rw [List.length_append, List.length_cons]
    omega
  · exact (drop_len_succ_append _ _ _).symm

theorem matchAt_mono {s t r : List Char} (h : matchAt s = some (t, r))
    (z : List Char) : matchAt (s ++ z) = some (t, r ++ z) := by
  rw [matchAt_some_iff] at h
  obtain ⟨w, rfl, ht, hne, hlt, hr⟩ := h
  subst ht
  subst hr
  obtain ⟨a, d, hw, hpa, hd⟩ := exists_break (p := notNL) w hlt
  have hX : ('\n' :: '#' :: '#' :: '#' :: ' ' :: w) ++ z =
      '\n' :: '#' :: '#' :: '#' :: ' ' :: (w.takeWhile notNL ++ a :: (d ++ z)) := by
    conv_lhs => rw [hw]
    simp
  rw [hX, matchAt_cons5, if_pos ⟨rfl, rfl, rfl, rfl, rfl⟩]
  have htw : ((w.takeWhile notNL) ++ a :: (d ++ z)).takeWhile notNL =
      w.takeWhile notNL :=
    takeWhile_append_of_forall (fun _ hc => mem_takeWhile_pred hc) hpa _
  rw [htw, if_neg hne]
  have hlen : ¬ ((w.takeWhile notNL) ++ a :: (d ++ z)).length ≤
      (w.takeWhile notNL).length := by
    rw [List.length_append, List.length_cons]
    omega
  rw [if_neg hlen, drop_len_succ_append, hd]

theorem matchAt_none_of_append {x z : List Char}
    (h : matchAt (x ++ z) = none) : matchAt x = none := by
  cases hm : matchAt x with
  | none => rfl
  | some tr =>
    obtain ⟨t, r⟩ := tr
    rw [matchAt_mono hm z] at h
    cases h

/-- Whether the section pattern matches at a position inside `x` followed by a
newline-headed continuation does not depend on the continuation after that
newline: positions 1-4 of the pattern are `#`/space and the title characters
are non-newline, so the continuation can only contribute the final newline of
a match. -/
theorem matchAt_boundary {x y y₂ : List Char} (hx : x ≠ [])
    (h : matchAt (x ++ '\n' :: y) = none) :
    matchAt (x ++ '\n' :: y₂) = none := by
  cases hm : matchAt (x ++ '\n' :: y₂) with
  | none => rfl
  | some tr =>
    exfalso
    obtain ⟨t, r⟩ := tr
    rw [matchAt_some_iff] at hm
    obtain ⟨w, heq, ht, hne, hlt, hr⟩ := hm
    rcases x with _ | ⟨a0, x0⟩
    · exact hx rfl
    rcases x0 with _ | ⟨a1, x1⟩
    · rw [List.cons_append, List.nil_append] at heq
      injection heq with h0 heq
      injection heq with h1 heq
      exact absurd h1 (by decide)
    rcases x1 with _ | ⟨a2, x2⟩
    · simp only [List.cons_append, List.nil_append] at heq
      injection heq with h0 heq
      injection heq with h1 heq
      injection heq with h2 heq
      exact absurd h2 (by decide)
    rcases x2 with _ | ⟨a3, x3⟩
    · simp only [List.cons_append, List.nil_append] at heq
      injection heq with h0 heq
      injection heq with h1 heq
      injection heq with h2 heq
      injection heq with h3 heq
      exact absurd h3 (by decide)
    rcases x3 with _ | ⟨a4, x4⟩
    · simp only [List.cons_append, List.nil_append] at heq
      injection heq with h0 heq
      injection heq with h1 heq
      injection heq with h2 heq
      injection heq with h3 heq
      injection heq with h4 heq
      exact absurd h4 (by decide)
    · simp only [List.cons_append] at heq
      injection heq with h0 heq
      injection heq with h1 heq
      injection heq with h2 heq
      injection heq with h3 heq
      injection heq with h4 heq
      subst h0; subst h1; subst h2; subst h3; subst h4
      have htw : (x4 ++ '\n' :: y).takeWhile notNL =
          (x4 ++ '\n' :: y₂).takeWhile notNL := by
        rw [takeWhile_append_stop (notNL_false_iff.mpr rfl),
          takeWhile_append_stop (notNL_false_iff.mpr rfl)]
      have htw₂ : t = (x4 ++ '\n' :: y).takeWhile notNL := by
        rw [htw, heq]
        exact ht
      have htlen : t.length ≤ x4.length := by
        rw [htw₂, takeWhile_append_stop (notNL_false_iff.mpr rfl)]
        exact takeWhile_length_le _ _
      have hsome : matchAt (('\n' :: '#' :: '#' :: '#' :: ' ' :: x4) ++ '\n' :: y) =
          some (t, (x4 ++ '\n' :: y).drop (t.length + 1)) := by
        rw [show ('\n' :: '#' :: '#' :: '#' :: ' ' :: x4) ++ '\n' :: y =
          '\n' :: '#' :: '#' :: '#' :: ' ' :: (x4 ++ '\n' :: y) by simp]
        rw [matchAt_some_iff]
        refine ⟨x4 ++ '\n' :: y, rfl, htw₂, hne, ?_, rfl⟩
        rw [List.length_append, List.length_cons]
        omega
      rw [h] at hsome
      exact Option.noConfusion hsome

/-- Transfer of a no-match fact at a position when the continuation changes
but stays newline-headed (or becomes empty). -/
theorem matchAt_transfer {x f₁ f₂ : List Char} (hx : x ≠ [])
    (h : matchAt (x ++ f₁) = none)
    (hf : f₂ = [] ∨ ((∃ w₂, f₂ = '\n' :: w₂) ∧ ∃ w₁, f₁ = '\n' :: w₁)) :
    matchAt (x ++ f₂) = none := by
  rcases hf with rfl | ⟨⟨w₂, rfl⟩, ⟨w₁, rfl⟩⟩
  · rw [List.append_nil]
    exact matchAt_none_of_append h
  · exact matchAt_boundary hx h

/- ### `splitSections` lemmas -/

theorem matchAt_some_length {s t r : List Char} (h : matchAt s = some (t, r)) :
    r.length + 7 ≤ s.length := by
  rw [matchAt_some_iff] at h
  obtain ⟨w, rfl, ht, hne, hlt, hr⟩ := h
  have hrlen : r.length = w.length - (t.length + 1) := by
    rw [hr, List.length_drop]
  have htne : 1 ≤ t.length := by
    cases t with
    | nil => exact absurd rfl hne
    | cons a as => simp
  simp only [List.length_cons]
  omega

theorem splitGo_fuel : ∀ (f₁ : Nat) (s : List Char) (f₂ : Nat),
    s.length ≤ f₁ → s.length ≤ f₂ → splitGo f₁ s = splitGo f₂ s := by
  intro f₁
  induction f₁ with
  | zero =>
    intro s f₂ h1 h2
    have hs : s = [] := List.length_eq_zero.mp (Nat.le_zero.mp h1)
    subst hs
    cases f₂ <;> rfl
  | succ f ih =>
    intro s f₂ h1 h2
    cases s with
    | nil => cases f₂ <;> rfl
    | cons c cs =>
      cases f₂ with
      | zero => simp at h2
      | succ g =>
        cases hm : matchAt (c :: cs) with
        | none =>
          have hc : cs.length ≤ f := by
            simp only [List.length_cons] at h1; omega
          have hg : cs.length ≤ g := by
            simp only [List.length_cons] at h2; omega
          simp only [splitGo, hm]
          rw [ih cs g hc hg]
        | some tr =>
          obtain ⟨t, rest⟩ := tr
          have hlen := matchAt_some_length hm
          have hc : rest.length ≤ f := by
            simp only [List.length_cons] at h1 hlen; omega
          have hg : rest.length ≤ g := by
            simp only [List.length_cons] at h2 hlen; omega
          simp only [splitGo, hm]
          rw [ih rest g hc hg]

theorem splitSections_cons (c : Char) (cs : List Char) :
    splitSections (c :: cs) =
      match matchAt (c :: cs) with
      | some (t, rest) =>
        ([], (t, (splitSections rest).1) :: (splitSections rest).2)
      | none => (c :: (splitSections cs).1, (splitSections cs).2) := by
  show splitGo (cs.length + 1) (c :: cs) = _
  cases hm : matchAt (c :: cs) with
  | none => simp only [splitGo, hm, splitSections]
  | some tr =>
    obtain ⟨t, rest⟩ := tr
    have hlen := matchAt_some_length hm
    simp only [splitGo, hm, splitSections]
    rw [splitGo_fuel cs.length rest rest.length
      (by simp only [List.length_cons] at hlen; omega) le_rfl]

/-- The split saw no match at any position strictly inside the preamble
(stated against the full continuation of the scan). -/
def PreGood (pre : List Char) (es : List (List Char × List Char)) : Prop :=
  ∀ i, i < pre.length → matchAt (pre.drop i ++ joinRaw es) = none

/-- Invariants of the parsed entry list: titles are nonempty and contain no
newline, and the split saw no match at any position strictly inside a body
(against the remaining raw text). -/
def EsGood : List (List Char × List Char) → Prop
  | [] => True
  | (t, b) :: es =>
    ¬ t.isEmpty ∧ '\n' ∉ t ∧
      (∀ i, i < b.length → matchAt (b.drop i ++ joinRaw es) = none) ∧ EsGood es

theorem EsGood_cons {t b : List Char} {es : List (List Char × List Char)} :
    EsGood ((t, b) :: es) ↔
      (¬ t.isEmpty ∧ '\n' ∉ t ∧
        (∀ i, i < b.length → matchAt (b.drop i ++ joinRaw es) = none) ∧
        EsGood es) :=
  Iff.rfl

theorem joinRaw_cons_eq (t b : List Char) (es : List (List Char × List Char)) :
    joinRaw ((t, b) :: es) =
      '\n' :: '#' :: '#' :: '#' :: ' ' :: (t ++ '\n' :: (b ++ joinRaw es)) := by
  simp [joinRaw, entryRaw, List.append_assoc]

theorem splitSections_spec : ∀ (n : Nat) (s : List Char), s.length ≤ n →
    s = (splitSections s).1 ++ joinRaw (splitSections s).2 ∧
    PreGood (splitSections s).1 (splitSections s).2 ∧
    EsGood (splitSections s).2 := by
  intro n
  induction n with
  | zero =>
    intro s h
    have hs : s = [] := List.length_eq_zero.mp (Nat.le_zero.mp h)
    subst hs
    refine ⟨rfl, ?_, trivial⟩
    intro i hi
    rw [show splitSections ([] : List Char) = ([], []) from rfl] at hi
    simp at hi
  | succ n ih =>
    intro s h
    cases s with
    | nil =>
      refine ⟨rfl, ?_, trivial⟩
      intro i hi
      rw [show splitSections ([] : List Char) = ([], []) from rfl] at hi
      simp at hi
    | cons c cs =>
      rw [splitSections_cons]
      cases hm : matchAt (c :: cs) with
      | none =>
        obtain ⟨hpart, hpre, hges⟩ := ih cs
          (by simp only [List.length_cons] at h; omega)
        refine ⟨?_, ?_, hges⟩
        · show c :: cs =
            (c :: (splitSections cs).1) ++ joinRaw (splitSections cs).2
          rw [List.cons_append]
          exact congrArg (c :: ·) hpart
        · intro i hi
          cases i with
          | zero =>
            show matchAt ((c :: (splitSections cs).1) ++
              joinRaw (splitSections cs).2) = none
            rw [List.cons_append, ← hpart]
            exact hm
          | succ i =>
            show matchAt (((splitSections cs).1).drop i ++
              joinRaw (splitSections cs).2) = none
            exact hpre i (by simp only [List.length_cons] at hi; omega)
      | some tr =>
        obtain ⟨t, rest⟩ := tr
        have hlen := matchAt_some_length hm
        obtain ⟨hpart, hpre, hges⟩ := ih rest
          (by simp only [List.length_cons] at h hlen; omega)
        obtain ⟨w, heq, ht, hne, hlt, hr⟩ := matchAt_some_iff.mp hm
        obtain ⟨a, d, hw, hpa, hd⟩ := exists_break (p := notNL) w (ht ▸ hlt)
        have ha : a = '\n' := notNL_false_iff.mp hpa
        subst ha
        have hrest : rest = d := by
          rw [hr, ht, hd]
        refine ⟨?_, ?_, ?_, ?_, ?_, hges⟩
        · show c :: cs = [] ++ joinRaw
            ((t, (splitSections rest).1) :: (splitSections rest).2)
          rw [List.nil_append, joinRaw_cons_eq, ← hpart, heq]
          rw [hw, ← ht, hrest]
        · intro i hi
          exact absurd hi (by simp)
        · exact hne
        · intro hmem
          have := mem_takeWhile_pred (p := notNL) (ht ▸ hmem)
          exact absurd this (by decide)
        · exact hpre

theorem splitSections_partition (s : List Char) :
    s = (splitSections s).1 ++ joinRaw (splitSections s).2 :=
  (splitSections_spec s.length s le_rfl).1

theorem splitSections_pregood (s : List Char) :
    PreGood (splitSections s).1 (splitSections s).2 :=
  (splitSections_spec s.length s le_rfl).2.1

theorem splitSections_esgood (s : List Char) :
    EsGood (splitSections s).2 :=
  (splitSections_spec s.length s le_rfl).2.2

/- ### `cleanEntries` lemmas -/

/-- No two entries resolve to the same identifier equivalence class: for any
earlier entry with extracted identifier `x` and later entry with extracted
identifier `y`, the raw and version-stripped forms are pairwise distinct. -/
def PairwiseClasses (es : List (List Char × List Char)) : Prop :=
  List.Pairwise (fun e₁ e₂ => ∀ x y, extractId e₁.2 = some x →
    extractId e₂.2 = some y →
    y ≠ x ∧ y ≠ stripVersion x ∧ stripVersion y ≠ x ∧
      stripVersion y ≠ stripVersion x) es

theorem cleanEntries_sublist (seen : List (List Char))
    (es : List (List Char × List Char)) :
    List.Sublist (cleanEntries seen es) es := by
  induction es generalizing seen with
  | nil => exact List.Sublist.refl _
  | cons e es ih =>
    obtain ⟨t, b⟩ := e
    cases hid : extractId b with
    | none =>
      simp only [cleanEntries, hid]
      exact List.Sublist.cons₂ _ (ih seen)
    | some pid =>
      simp only [cleanEntries, hid]
      by_cases hseen : pid ∈ seen ∨ stripVersion pid ∈ seen
      · rw [if_pos hseen]
        exact List.Sublist.cons _ (ih seen)
      · rw [if_neg hseen]
        exact List.Sublist.cons₂ _ (ih _)

theorem cleanEntries_mem_none : ∀ (es : List (List Char × List Char))
    (e : List Char × List Char), e ∈ es → extractId e.2 = none →
    ∀ seen, e ∈ cleanEntries seen es := by
  intro es
  induction es with
  | nil => intro e he; cases he
  | cons f es ih =>
    intro e he hid seen
    obtain ⟨t, b⟩ := f
    rcases List.mem_cons.mp he with rfl | hmem
    · simp only [cleanEntries, hid]
      exact List.mem_cons_self _ _
    · cases hfid : extractId b with
      | none =>
        simp only [cleanEntries, hfid]
        exact List.mem_cons_of_mem _ (ih e hmem hid seen)
      | some pid =>
        simp only [cleanEntries, hfid]
        by_cases hseen : pid ∈ seen ∨ stripVersion pid ∈ seen
        · rw [if_pos hseen]
          exact ih e hmem hid seen
        · rw [if_neg hseen]
          exact List.mem_cons_of_mem _ (ih e hmem hid _)

theorem cleanEntries_fresh : ∀ (es : List (List Char × List Char))
    (seen : List (List Char)) (e : List Char × List Char),
    e ∈ cleanEntries seen es → ∀ x, extractId e.2 = some x →
    x ∉ seen ∧ stripVersion x ∉ seen := by
  intro es
  induction es with
  | nil =>
    intro seen e he
    cases he
  | cons f es ih =>
    intro seen e he x hx
    obtain ⟨t, b⟩ := f
    cases hfid : extractId b with
    | none =>
      simp only [cleanEntries, hfid] at he
      rcases List.mem_cons.mp he with rfl | hmem
      · rw [hfid] at hx
        cases hx
      · exact ih seen e hmem x hx
    | some pid =>
      simp only [cleanEntries, hfid] at he
      by_cases hseen : pid ∈ seen ∨ stripVersion pid ∈ seen
      · rw [if_pos hseen] at he
        exact ih seen e he x hx
      · rw [if_neg hseen] at he
        rcases List.mem_cons.mp he with rfl | hmem
        · rw [hfid] at hx
          injection hx with hx
          subst hx
          push_neg at hseen
          exact hseen
        · have hxy := ih _ e hmem x hx
          constructor
          · intro hin
            exact hxy.1 (List.mem_cons_of_mem _ (List.mem_cons_of_mem _ hin))
          · intro hin
            exact hxy.2 (List.mem_cons_of_mem _ (List.mem_cons_of_mem _ hin))

theorem cleanEntries_pairwise : ∀ (es : List (List Char × List Char))
    (seen : List (List Char)), PairwiseClasses (cleanEntries seen es) := by
  intro es
  induction es with
  | nil => intro seen; exact List.Pairwise.nil
  | cons f es ih =>
    intro seen
    obtain ⟨t, b⟩ := f
    cases hfid : extractId b with
    | none =>
      simp only [cleanEntries, hfid]
      refine List.Pairwise.cons ?_ (ih seen)
      intro e' he' x y hx hy
      rw [hfid] at hx
      cases hx
    | some pid =>
      simp only [cleanEntries, hfid]
      by_cases hseen : pid ∈ seen ∨ stripVersion pid ∈ seen
      · rw [if_pos hseen]
        exact ih seen
      · rw [if_neg hseen]
        refine List.Pairwise.cons ?_ (ih _)
        intro e' he' x y hx hy
        rw [hfid] at hx
        injection hx with hx
        subst hx
        have hfr := cleanEntries_fresh es _ e' he' y hy
        refine ⟨?_, ?_, ?_, ?_⟩
        · intro hc
          exact hfr.1 (hc ▸ List.mem_cons_of_mem _ (List.mem_cons_self _ _))
        · intro hc
          exact hfr.1 (hc ▸ List.mem_cons_self _ _)
        · intro hc
          exact hfr.2 (hc ▸ List.mem_cons_of_mem _ (List.mem_cons_self _ _))
        · intro hc
          exact hfr.2 (hc ▸ List.mem_cons_self _ _)

theorem cleanEntries_eq_self : ∀ (es : List (List Char × List Char))
    (seen : List (List Char)), PairwiseClasses es →
    (∀ e ∈ es, ∀ x, extractId e.2 = some x →
      x ∉ seen ∧ stripVersion x ∉ seen) →
    cleanEntries seen es = es := by
  intro es
  induction es with
  | nil => intro seen _ _; rfl
  | cons f es ih =>
    intro seen hP hA
    obtain ⟨t, b⟩ := f
    rcases List.pairwise_cons.mp hP with ⟨hhead, htail⟩
    cases hfid : extractId b with
    | none =>
      simp only [cleanEntries, hfid]
      rw [ih seen htail (fun e he => hA e (List.mem_cons_of_mem _ he))]
    | some pid =>
      simp only [cleanEntries, hfid]
      have hguard := hA (t, b) (List.mem_cons_self _ _) pid hfid
      rw [if_neg (by push_neg; exact hguard)]
      have htailEq : cleanEntries (stripVersion pid :: pid :: seen) es = es := by
        apply ih _ htail
        intro e he y hy
        have h4 := hhead e he pid y hfid hy
        have hs := hA e (List.mem_cons_of_mem _ he) y hy
        constructor
        · intro hin
          rcases List.mem_cons.mp hin with h | hin
          · exact h4.2.1 h
          rcases List.mem_cons.mp hin with h | hin
          · exact h4.1 h
          · exact hs.1 hin
        · intro hin
          rcases List.mem_cons.mp hin with h | hin
          · exact h4.2.2.2 h
          rcases List.mem_cons.mp hin with h | hin
          · exact h4.2.2.1 h
          · exact hs.2 hin
      rw [htailEq]

/- ### Re-splitting the rendered output -/

/-- Body invariant restated against the rendered continuation. -/
def RGood : List (List Char × List Char) → Prop
  | [] => True
  | (t, b) :: es =>
    '\n' ∉ t ∧
      (∀ i, i < b.length → matchAt (b.drop i ++ renderEntries es) = none) ∧
      RGood es

theorem RGood_cons {t b : List Char} {es : List (List Char × List Char)} :
    RGood ((t, b) :: es) ↔
      ('\n' ∉ t ∧
        (∀ i, i < b.length → matchAt (b.drop i ++ renderEntries es) = none) ∧
        RGood es) :=
  Iff.rfl

theorem renderEntries_shape (es : List (List Char × List Char)) :
    renderEntries es = [] ∨ ∃ w, renderEntries es = '\n' :: w := by
  cases es with
  | nil => exact Or.inl rfl
  | cons e es =>
    obtain ⟨t, b⟩ := e
    exact Or.inr ⟨_, rfl⟩

theorem drop_ne_nil_of_lt {l : List Char} {i : Nat} (hi : i < l.length) :
    l.drop i ≠ [] := by
  intro hnil
  have hlen := congrArg List.length hnil
  rw [List.length_drop] at hlen
  simp only [List.length_nil] at hlen
  omega

theorem esgood_to_rgood : ∀ (es : List (List Char × List Char))
    (seen : List (List Char)), EsGood es → RGood (cleanEntries seen es) := by
  intro es
  induction es with
  | nil => intro seen _; trivial
  | cons f es ih =>
    intro seen hg
    obtain ⟨t, b⟩ := f
    rw [EsGood_cons] at hg
    obtain ⟨htne, htnl, hbody, hges⟩ := hg
    have hbody' : ∀ (seen' : List (List Char)) (i : Nat), i < b.length →
        matchAt (b.drop i ++ renderEntries (cleanEntries seen' es)) = none := by
      intro seen' i hi
      refine matchAt_transfer (drop_ne_nil_of_lt hi) (hbody i hi) ?_
      rcases renderEntries_shape (cleanEntries seen' es) with hsh | ⟨w, hsh⟩
      · exact Or.inl hsh
      · refine Or.inr ⟨⟨w, hsh⟩, ?_⟩
        cases es with
        | nil => exact List.noConfusion hsh
        | cons g gs =>
          obtain ⟨t₂, b₂⟩ := g
          exact ⟨_, joinRaw_cons_eq t₂ b₂ gs⟩
    cases hfid : extractId b with
    | none =>
      simp only [cleanEntries, hfid]
      exact RGood_cons.mpr ⟨htnl, hbody' seen, ih seen hges⟩
    | some pid =>
      simp only [cleanEntries, hfid]
      by_cases hseen : pid ∈ seen ∨ stripVersion pid ∈ seen
      · rw [if_pos hseen]
        exact ih seen hges
      · rw [if_neg hseen]
        exact RGood_cons.mpr ⟨htnl, hbody' _, ih _ hges⟩

theorem splitSections_append_of_nomatch : ∀ (p q : List Char),
    (∀ i, i < p.length → matchAt (p.drop i ++ q) = none) →
    splitSections (p ++ q) = (p ++ (splitSections q).1, (splitSections q).2) := by
  intro p
  induction p with
  | nil =>
    intro q _
    simp
  | cons c p ih =>
    intro q h
    have h0 : matchAt (c :: (p ++ q)) = none := by
      have := h 0 (by simp)
      rw [List.drop_zero, List.cons_append] at this
      exact this
    rw [List.cons_append, splitSections_cons]
    simp only [h0]
    rw [ih q (fun i hi => by
      have hthis := h (i + 1) (by simp only [List.length_cons]; omega)
      rw [List.drop_succ_cons] at hthis
      exact hthis)]
    simp

/- ### `pyStrip` lemmas -/

theorem pyStrip_mem_sub {c : Char} {t : List Char} (h : c ∈ pyStrip t) :
    c ∈ t := by
  unfold pyStrip at h
  rw [List.mem_reverse] at h
  have h2 : c ∈ (t.dropWhile isPySpace).reverse :=
    (List.dropWhile_sublist _).mem h
  rw [List.mem_reverse] at h2
  exact (List.dropWhile_sublist _).mem h2

theorem dropWhile_append_single {p : Char → Bool} {a : Char}
    (ha : p a = false) : ∀ (w : List Char),
    ∃ wOut, (w ++ [a]).dropWhile p = wOut ++ [a] := by
  intro w
  induction w with
  | nil =>
    refine ⟨[], ?_⟩
    rw [List.nil_append]
    rw [List.dropWhile_cons_of_neg (by simp [ha])]
  | cons c w ih =>
    by_cases hc : p c
    · obtain ⟨wOut, hOut⟩ := ih
      refine ⟨wOut, ?_⟩
      rw [List.cons_append, List.dropWhile_cons_of_pos hc, hOut]
    · refine ⟨c :: w, ?_⟩
      rw [List.cons_append, List.dropWhile_cons_of_neg hc]

theorem dropWhile_idem (p : Char → Bool) (l : List Char) :
    (l.dropWhile p).dropWhile p = l.dropWhile p := by
  cases h : l.dropWhile p with
  | nil => rfl
  | cons x xs =>
    have hx : p x = false := dropWhile_head_false h
    rw [List.dropWhile_cons_of_neg (by simp [hx])]

theorem pyStrip_idem (t : List Char) : pyStrip (pyStrip t) = pyStrip t := by
  unfold pyStrip
  cases hu2 : t.dropWhile isPySpace with
  | nil => simp
  | cons a d =>
    have hpa : isPySpace a = false := dropWhile_head_false hu2
    obtain ⟨wOut, hwOut⟩ := dropWhile_append_single hpa d.reverse
    have hv2 : (a :: d).reverse.dropWhile isPySpace = wOut ++ [a] := by
      rw [List.reverse_cons]
      exact hwOut
    rw [hv2]
    have hra : (wOut ++ [a]).reverse = a :: wOut.reverse := by simp
    rw [hra, List.dropWhile_cons_of_neg (by simp [hpa])]
    have hrr : (a :: wOut.reverse).reverse = wOut ++ [a] := by simp
    rw [hrr]
    have hvd : (wOut ++ [a]).dropWhile isPySpace = wOut ++ [a] := by
      rw [← hv2]
      exact dropWhile_idem _ _
    rw [hvd]
    exact hra

/- ### Round trip: re-parsing the rendered entries -/

theorem renderEntries_map_strip (kept : List (List Char × List Char)) :
    renderEntries (kept.map (fun e => (pyStrip e.1, e.2))) =
      renderEntries kept := by
  induction kept with
  | nil => rfl
  | cons e es ih =>
    obtain ⟨t, b⟩ := e
    simp only [List.map_cons, renderEntries]
    rw [pyStrip_idem, ih]

theorem pairwise_map_strip {kept : List (List Char × List Char)}
    (h : PairwiseClasses kept) :
    PairwiseClasses (kept.map (fun e => (pyStrip e.1, e.2))) := by
  unfold PairwiseClasses at h ⊢
  exact h.map _ (fun a b hab => hab)

/-- Re-splitting the rendered kept entries (all of whose stripped titles are
nonempty) recovers exactly those entries, with stripped titles and unchanged
bodies, and an empty preamble. -/
theorem resplit : ∀ (kept : List (List Char × List Char)), RGood kept →
    (∀ e ∈ kept, ¬ (pyStrip e.1).isEmpty) →
    splitSections (renderEntries kept) =
      ([], kept.map (fun e => (pyStrip e.1, e.2))) := by
  intro kept
  induction kept with
  | nil => intro _ _; rfl
  | cons e es ih =>
    intro hr hs
    obtain ⟨t, b⟩ := e
    obtain ⟨htnl, hbody, hres⟩ := RGood_cons.mp hr
    have hstrip : ¬ (pyStrip t).isEmpty := hs (t, b) (List.mem_cons_self _ _)
    have hstripnl : '\n' ∉ pyStrip t := fun hmem => htnl (pyStrip_mem_sub hmem)
    have hre : renderEntries ((t, b) :: es) =
        '\n' :: ('#' :: '#' :: '#' :: ' ' ::
          (pyStrip t ++ '\n' :: (b ++ renderEntries es))) := by
      simp [renderEntries, entryRaw, List.append_assoc]
    rw [hre, splitSections_cons]
    have hmatch : matchAt ('\n' :: '#' :: '#' :: '#' :: ' ' ::
        (pyStrip t ++ '\n' :: (b ++ renderEntries es))) =
        some (pyStrip t, b ++ renderEntries es) :=
      matchAt_entry _ _ hstrip hstripnl
    simp only [hmatch]
    rw [splitSections_append_of_nomatch b (renderEntries es) hbody]
    rw [ih hres (fun f hf => hs f (List.mem_cons_of_mem _ hf))]
    simp

/-- One unfolding step of the compaction routine. -/
theorem cleanDuplicateEntries_def (content : List Char) :
    cleanDuplicateEntries content =
      (splitSections content).1 ++
        renderEntries (cleanEntries [] (splitSections content).2) := rfl

theorem cleanDup_resplit {content : List Char}
    (hstrip : ∀ e ∈ (splitSections content).2, ¬ (pyStrip e.1).isEmpty)
    (hes : (splitSections content).2 ≠ []) :
    splitSections (cleanDuplicateEntries content) =
      ((splitSections content).1,
        (cleanEntries [] (splitSections content).2).map
          (fun e => (pyStrip e.1, e.2))) := by
  rw [cleanDuplicateEntries_def]
  rw [splitSections_append_of_nomatch _ _ ?hpre]
  case hpre =>
    intro i hi
    refine matchAt_transfer (drop_ne_nil_of_lt hi)
      (splitSections_pregood content i hi) ?_
    rcases renderEntries_shape (cleanEntries [] (splitSections content).2) with
      hsh | ⟨w, hsh⟩
    · exact Or.inl hsh
    · refine Or.inr ⟨⟨w, hsh⟩, ?_⟩
      cases hesc : (splitSections content).2 with
      | nil => exact absurd hesc hes
      | cons g gs =>
        obtain ⟨t₂, b₂⟩ := g
        exact ⟨_, joinRaw_cons_eq t₂ b₂ gs⟩
  rw [resplit _ (esgood_to_rgood _ [] (splitSections_esgood content))
    (fun e he => hstrip e ((cleanEntries_sublist [] _).mem he))]
  simp

/-- Claim C9 counterexample: compaction is not byte-level idempotent on every
store content.  The store `"\n###  \n### X \nB"` parses as one entry whose
title is a single space; the first run strips that title to the empty string,
emitting `"\n### \n### X \nB"`, in which the degenerate `"### "` line no
longer parses as a section title, so the second run parses `"### X "` (from the
old body) as a new entry title and strips its trailing space — the second
output differs from the first. -/
theorem claim_C9_counterexample :
    cleanDuplicateEntries (cleanDuplicateEntries ("\n###  \n### X \nB".toList)) ≠
      cleanDuplicateEntries ("\n###  \n### X \nB".toList) := by
  decide

/-- Claim C9 (amended): compaction is byte-level idempotent on every store
content in which no parsed entry title consists entirely of whitespace (i.e.
every title survives `strip()` nonempty — true of every store the program
itself writes for real papers).  On such contents, running
`clean_duplicate_entries` twice yields the same bytes as running it once.
Full byte-level idempotence fails: an all-whitespace section title is stripped
to an empty title whose emitted `"### "` line no longer re-parses as an entry
(see the counterexample). -/
theorem claim_C9_compaction_idempotent :
    ∀ content : List Char,
      (∀ e ∈ (splitSections content).2, ¬ (pyStrip e.1).isEmpty) →
      cleanDuplicateEntries (cleanDuplicateEntries content) =
        cleanDuplicateEntries content := by
  intro content hstrip
  by_cases hes : (splitSections content).2 = []
  · have h1 : cleanDuplicateEntries content = content := by
      rw [cleanDuplicateEntries_def, hes]
      rw [show cleanEntries [] ([] : List (List Char × List Char)) = []
        from rfl]
      rw [show renderEntries [] = [] from rfl, List.append_nil]
      conv_rhs => rw [splitSections_partition content]
      rw [hes]
      rw [show joinRaw [] = [] from rfl, List.append_nil]
    rw [h1]
    exact h1
  · have h2 := cleanDup_resplit hstrip hes
    calc cleanDuplicateEntries (cleanDuplicateEntries content)
        = (splitSections (cleanDuplicateEntries content)).1 ++
            renderEntries (cleanEntries []
              (splitSections (cleanDuplicateEntries content)).2) := rfl
      _ = (splitSections content).1 ++
            renderEntries (cleanEntries []
              ((cleanEntries [] (splitSections content).2).map
                (fun e => (pyStrip e.1, e.2)))) := by rw [h2]
      _ = (splitSections content).1 ++
            renderEntries ((cleanEntries [] (splitSections content).2).map
              (fun e => (pyStrip e.1, e.2))) := by
            rw [cleanEntries_eq_self _ []
              (pairwise_map_strip (cleanEntries_pairwise _ []))
              (fun e he x hx => ⟨List.not_mem_nil x, List.not_mem_nil _⟩)]
      _ = (splitSections content).1 ++
            renderEntries (cleanEntries [] (splitSections content).2) := by
            rw [renderEntries_map_strip]
      _ = cleanDuplicateEntries content := rfl

/-- Witness for the amended claim C9 at a concrete store with one
ordinary-titled entry. -/
theorem claim_C9_compaction_idempotent_witness :
    cleanDuplicateEntries (cleanDuplicateEntries
        ("HDR\n### Title\nsome body".toList)) =
      cleanDuplicateEntries ("HDR\n### Title\nsome body".toList) :=
  claim_C9_compaction_idempotent ("HDR\n### Title\nsome body".toList)
    (by decide)

/-- Claim C3: compaction establishes the store invariant.  For every store
content: the content is the preamble plus the raw entry texts (the parse is a
partition); the compacted output keeps that preamble verbatim at its front;
no two kept entries with extractable arXiv identifiers resolve to the same
identifier equivalence class (raw and version-stripped forms all distinct);
and every parsed entry without an extractable identifier is kept. -/
theorem claim_C3_compaction_invariant :
    ∀ content : List Char,
      (∃ w, content = (splitSections content).1 ++ w) ∧
      (∃ w, cleanDuplicateEntries content = (splitSections content).1 ++ w) ∧
      PairwiseClasses (cleanEntries [] (splitSections content).2) ∧
      (∀ e ∈ (splitSections content).2, extractId e.2 = none →
          e ∈ cleanEntries [] (splitSections content).2) :=
  fun content =>
    ⟨⟨joinRaw (splitSections content).2, splitSections_partition content⟩,
     ⟨renderEntries (cleanEntries [] (splitSections content).2), rfl⟩,
     cleanEntries_pairwise _ [],
     fun e he hid => cleanEntries_mem_none _ e he hid []⟩

/-- Witness for claim C3 at a concrete store: the entry without an arXiv link
is kept by the dedup pass. -/
theorem claim_C3_compaction_invariant_witness :
    (("NoLink".toList, "plain body".toList) ∈
      cleanEntries [] (splitSections ("HDR\n### NoLink\nplain body".toList)).2) :=
  (claim_C3_compaction_invariant ("HDR\n### NoLink\nplain body".toList)).2.2.2
    ("NoLink".toList, "plain body".toList) (by decide) (by decide)

end ArxivTracker
